import Mathlib

/-!
Verification development for the recipe demand resolver of `blacksmith2.js`
(`calculateMaterials` / `processRecipe`).

Shallow embedding choices:
* JS objects used as string-keyed maps become association lists
  `List (String × β)`; `obj[k] = (obj[k] || 0) + v` becomes `addTo`,
  which updates an existing entry in place or appends a fresh one,
  matching JS insertion-order semantics.
* A `Recipe` is an explicit structure: the ingredient properties (in
  source order) plus the distinguished `output` field, mirroring the
  source's `for ... in recipe` loop that skips the `output` key.
* Quantities are `Nat`.  For positive `output`,
  `Math.ceil(a / o) = (a + o - 1) / o` exactly, embedded as `ceilDivNat`.
* The unbounded JS recursion is embedded with explicit fuel returning
  `Option`; `none` means the fuel bound was hit.  On acyclic tables
  (witnessed by a rank function) enough fuel always exists, which is the
  formal content of the termination claim.
-/

set_option autoImplicit false

namespace RedmCalc

/-- A recipe: ingredient properties in source order (name, per-batch
quantity), plus the distinguished `output` field (units per batch). -/
structure Recipe where
  ingredients : List (String × Nat)
  output : Nat
deriving DecidableEq, Repr

/-- The recipe table: JS object mapping item names to recipes. -/
abbrev RecipeTable := List (String × Recipe)

/-- JS property lookup `obj[k]` on a string-keyed object. -/
def lookupKey {β : Type} (m : List (String × β)) (k : String) : Option β :=
  match m with
  | [] => none
  | p :: rest => if p.1 = k then some p.2 else lookupKey rest k

/-- JS accumulation `obj[k] = (obj[k] || 0) + v`: update the entry in
place if the key is present, otherwise append a fresh entry. -/
def addTo {β : Type} [Add β] (m : List (String × β)) (k : String) (v : β) :
    List (String × β) :=
  match m with
  | [] => [(k, v)]
  | p :: rest => if p.1 = k then (p.1, p.2 + v) :: rest else p :: addTo rest k v

/-- Value of a key in an accumulator map, defaulting to 0 (JS `|| 0`). -/
def valD {β : Type} [Zero β] (m : List (String × β)) (k : String) : β :=
  (lookupKey m k).getD 0

/-- The key set (in insertion order) of a string-keyed object. -/
def keys {β : Type} (m : List (String × β)) : List String :=
  m.map Prod.fst

/-- `Math.ceil(a / o)` for naturals with positive `o`. -/
def ceilDivNat (a o : Nat) : Nat :=
  (a + o - 1) / o

/-- The two accumulators scoped to one `calculateMaterials` invocation:
`materialsNeeded` and `craftsNeeded`. -/
structure CalcState where
  materials : List (String × Nat)
  crafts : List (String × Nat)
deriving DecidableEq, Repr

/-- The `for (const ingredientName in recipe)` loop body of
`processRecipe`: each ingredient demands `perBatch * numCrafts` units,
handled by the recursive `step` (the recursive `processRecipe` call at
one fuel level lower). -/
def processIngredients (step : String → Nat → CalcState → Option CalcState) :
    List (String × Nat) → Nat → CalcState → Option CalcState
  | [], _, st => some st
  | p :: rest, numCrafts, st =>
    match step p.1 (p.2 * numCrafts) st with
    | none => none
    | some st' => processIngredients step rest numCrafts st'

/-- The recursive helper `processRecipe(currentItemName, requiredAmount)`
of `calculateMaterials`, with explicit state passing and fuel.
Raw material (lookup misses): accumulate into `materialsNeeded`.
Craftable: accumulate `ceil(requiredAmount / output)` into
`craftsNeeded`, then recurse into every ingredient. -/
def processRecipe (recipes : RecipeTable) :
    Nat → String → Nat → CalcState → Option CalcState
  | 0, _, _, _ => none
  | fuel + 1, currentItemName, requiredAmount, st =>
    match lookupKey recipes currentItemName with
    | none =>
      some { st with materials := addTo st.materials currentItemName requiredAmount }
    | some recipe =>
      processIngredients (fun n a s => processRecipe recipes fuel n a s)
        recipe.ingredients (ceilDivNat requiredAmount recipe.output)
        ⟨st.materials, addTo st.crafts currentItemName (ceilDivNat requiredAmount recipe.output)⟩

/-- `calculateMaterials(recipes, targetRecipeName, countToCraft)`: run
`processRecipe` from empty accumulators and return
`{ materials: materialsNeeded, crafts: craftsNeeded }`. -/
def calculateMaterials (recipes : RecipeTable) (targetRecipeName : String)
    (countToCraft : Nat) (fuel : Nat) :
    Option (List (String × Nat) × List (String × Nat)) :=
  (processRecipe recipes fuel targetRecipeName countToCraft ⟨[], []⟩).map
    fun st => (st.materials, st.crafts)

/-- The example recipe table of the source (`const recipes = {...}`). -/
def exampleRecipes : RecipeTable :=
  [("ironBar", ⟨[("ironOre", 25), ("coal", 25)], 6⟩),
   ("nails", ⟨[("ironBar", 1), ("coal", 1)], 6⟩),
   ("copperBar", ⟨[("copperOre", 5), ("coal", 2)], 2⟩),
   ("transferBoxes", ⟨[("copperBar", 1), ("nails", 5), ("softwood", 2)], 1⟩)]

/-- A rank function witnessing acyclicity of a recipe table: every
ingredient of a recipe ranks strictly below the recipe itself.  A finite
recipe graph is acyclic exactly when such a rank exists (topological
height); the rank of an item bounds the length of the longest ingredient
chain below it. -/
def Ranked (recipes : RecipeTable) (rank : String → Nat) : Prop :=
  ∀ p ∈ recipes, ∀ q ∈ p.2.ingredients, rank q.1 < rank p.1

/-- Validity invariant of §3 of the spec: every recipe produces a
positive number of units per batch. -/
def PosOutputs (recipes : RecipeTable) : Prop :=
  ∀ p ∈ recipes, 0 < p.2.output

instance decidableRanked (recipes : RecipeTable) (rank : String → Nat) :
    Decidable (Ranked recipes rank) :=
  inferInstanceAs (Decidable (∀ p ∈ recipes, ∀ q ∈ p.2.ingredients, rank q.1 < rank p.1))

instance decidablePosOutputs (recipes : RecipeTable) :
    Decidable (PosOutputs recipes) :=
  inferInstanceAs (Decidable (∀ p ∈ recipes, 0 < p.2.output))

/-- A topological rank for `exampleRecipes`. -/
def exampleRank : String → Nat := fun s =>
  if s = "transferBoxes" then 3
  else if s = "nails" then 2
  else if s = "ironBar" then 1
  else if s = "copperBar" then 1
  else 0

/-- The full mutable environment visible to the JS closure
`processRecipe`: the `recipes` parameter together with the two
accumulators.  The source only ever reads `recipes` and only ever
assigns to `materialsNeeded` / `craftsNeeded`; threading all three
through the embedding lets the frame property (no mutation of the
recipe table) be stated rather than hold by type. -/
structure FullState where
  recipes : RecipeTable
  materials : List (String × Nat)
  crafts : List (String × Nat)
deriving DecidableEq, Repr

/-- Ingredient loop of `processRecipe` over the full environment. -/
def processIngredientsS (step : String → Nat → FullState → Option FullState) :
    List (String × Nat) → Nat → FullState → Option FullState
  | [], _, st => some st
  | p :: rest, numCrafts, st =>
    match step p.1 (p.2 * numCrafts) st with
    | none => none
    | some st' => processIngredientsS step rest numCrafts st'

/-- `processRecipe` acting on the full environment: identical statement
by statement to `processRecipe`, but with the recipe table carried in
the state so that reads and (absent) writes to it are explicit. -/
def processRecipeS : Nat → String → Nat → FullState → Option FullState
  | 0, _, _, _ => none
  | fuel + 1, currentItemName, requiredAmount, st =>
    match lookupKey st.recipes currentItemName with
    | none =>
      some { st with materials := addTo st.materials currentItemName requiredAmount }
    | some recipe =>
      processIngredientsS (fun n a s => processRecipeS fuel n a s)
        recipe.ingredients (ceilDivNat requiredAmount recipe.output)
        ⟨st.recipes, st.materials, addTo st.crafts currentItemName (ceilDivNat requiredAmount recipe.output)⟩

/-- Ghost-instrumented state: the two accumulators of the source plus a
ghost `demands` map recording, for each craftable item, the total
`requiredAmount` over all call sites that demanded it.  The ghost field
never influences control flow; it only makes "total quantity demanded
across all call sites" a definable quantity. -/
structure GState where
  materials : List (String × Nat)
  crafts : List (String × Nat)
  demands : List (String × Nat)
deriving DecidableEq, Repr

/-- Projection dropping the ghost `demands` field. -/
def projG (g : GState) : CalcState :=
  ⟨g.materials, g.crafts⟩

/-- Ingredient loop of the ghost-instrumented resolver. -/
def processIngredientsG (step : String → Nat → GState → Option GState) :
    List (String × Nat) → Nat → GState → Option GState
  | [], _, st => some st
  | p :: rest, numCrafts, st =>
    match step p.1 (p.2 * numCrafts) st with
    | none => none
    | some st' => processIngredientsG step rest numCrafts st'

/-- `processRecipe` with the ghost demand log: identical to
`processRecipe` except that the craftable branch also records the
demanded amount in `demands`. -/
def processRecipeG (recipes : RecipeTable) :
    Nat → String → Nat → GState → Option GState
  | 0, _, _, _ => none
  | fuel + 1, currentItemName, requiredAmount, st =>
    match lookupKey recipes currentItemName with
    | none =>
      some { st with materials := addTo st.materials currentItemName requiredAmount }
    | some recipe =>
      processIngredientsG (fun n a s => processRecipeG recipes fuel n a s)
        recipe.ingredients (ceilDivNat requiredAmount recipe.output)
        ⟨st.materials, addTo st.crafts currentItemName (ceilDivNat requiredAmount recipe.output),
          addTo st.demands currentItemName requiredAmount⟩

/-- Craft-coverage invariant: for every craftable item, `output` times
the accumulated batch count covers the total demand logged so far. -/
def DemandsCovered (recipes : RecipeTable) (g : GState) : Prop :=
  ∀ item recipe, lookupKey recipes item = some recipe →
    valD g.demands item ≤ recipe.output * valD g.crafts item

/-- Modelled from the spec: the "mathematically minimal (unrounded)
requirement" of raw materials — the same demand-propagation walk but
with exact rational division `requiredAmount / output` in place of the
rounded-up batch count, so no rounding ever inflates a demand.  This is
the spec-side comparison point for the never-under-estimate claim; it
is not code of the repository.  Ingredient loop first. -/
def idealIngredients
    (step : String → ℚ → List (String × ℚ) → Option (List (String × ℚ))) :
    List (String × Nat) → ℚ → List (String × ℚ) → Option (List (String × ℚ))
  | [], _, m => some m
  | p :: rest, batches, m =>
    match step p.1 (p.2 * batches) m with
    | none => none
    | some m' => idealIngredients step rest batches m'

/-- Modelled from the spec: exact (unrounded) demand propagation, the
"mathematically minimal" raw-material requirement of §4.1/§8. -/
def idealProcess (recipes : RecipeTable) :
    Nat → String → ℚ → List (String × ℚ) → Option (List (String × ℚ))
  | 0, _, _, _ => none
  | fuel + 1, currentItemName, requiredAmount, m =>
    match lookupKey recipes currentItemName with
    | none => some (addTo m currentItemName requiredAmount)
    | some recipe =>
      idealIngredients (fun n a s => idealProcess recipes fuel n a s)
        recipe.ingredients (requiredAmount / recipe.output) m

/-- Parametric table realising "one recipe demanded via two independent
paths": `top` needs one `p1` and one `p2`; `p1` demands `a1` units of
`r` and `p2` demands `a2` units of `r`; `r` is produced `o` per batch
from a raw material. -/
def twoPathTable (a1 a2 o : Nat) : RecipeTable :=
  [("top", ⟨[("p1", 1), ("p2", 1)], 1⟩),
   ("p1", ⟨[("r", a1)], 1⟩),
   ("p2", ⟨[("r", a2)], 1⟩),
   ("r", ⟨[("raw", 1)], o⟩)]

/-- Key-classification invariant: every key of `craftsNeeded` is a key
of the recipe table and every key of `materialsNeeded` is absent from
it. -/
def KeyClassified (recipes : RecipeTable) (st : CalcState) : Prop :=
  (∀ k ∈ keys st.crafts, (lookupKey recipes k).isSome) ∧
    (∀ k ∈ keys st.materials, lookupKey recipes k = none)

/-- Every entry of both accumulators carries the value 0. -/
def AllZeroVals (st : CalcState) : Prop :=
  (∀ p ∈ st.materials, p.2 = 0) ∧ (∀ p ∈ st.crafts, p.2 = 0)

/-- Pointwise domination of the ideal (rational) materials map by the
computed (natural) one. -/
def Dominates (mQ : List (String × ℚ)) (mN : List (String × Nat)) : Prop :=
  ∀ k, valD mQ k ≤ ((valD mN k : ℕ) : ℚ)

/-! ### Association-list lemmas -/

theorem lookupKey_mem {β : Type} :
    ∀ {m : List (String × β)} {k : String} {v : β},
      lookupKey m k = some v → (k, v) ∈ m := by
  intro m
  induction m with
  | nil => intro k v h; simp [lookupKey] at h
  | cons p rest ih =>
    intro k v h
    obtain ⟨a, b⟩ := p
    by_cases hk : a = k
    · subst hk
      simp [lookupKey] at h
      subst h
      exact List.mem_cons_self _ _
    · simp only [lookupKey, if_neg hk] at h
      exact List.mem_cons_of_mem _ (ih h)

theorem lookupKey_addTo_none {β : Type} [Add β] :
    ∀ {m : List (String × β)} {k : String} (v : β),
      lookupKey m k = none → lookupKey (addTo m k v) k = some v := by
  intro m
  induction m with
  | nil => intro k v _; simp [addTo, lookupKey]
  | cons p rest ih =>
    intro k v h
    by_cases hk : p.1 = k
    · simp [lookupKey, if_pos hk] at h
    · simp only [lookupKey, if_neg hk] at h
      simp only [addTo, if_neg hk, lookupKey, if_neg hk]
      exact ih v h

theorem lookupKey_addTo_some {β : Type} [Add β] :
    ∀ {m : List (String × β)} {k : String} {w : β} (v : β),
      lookupKey m k = some w → lookupKey (addTo m k v) k = some (w + v) := by
  intro m
  induction m with
  | nil => intro k w v h; simp [lookupKey] at h
  | cons p rest ih =>
    intro k w v h
    by_cases hk : p.1 = k
    · simp only [lookupKey, if_pos hk] at h
      rw [Option.some_inj] at h
      subst h
      simp [addTo, if_pos hk, lookupKey]
    · simp only [lookupKey, if_neg hk] at h
      simp only [addTo, if_neg hk, lookupKey, if_neg hk]
      exact ih v h

theorem lookupKey_addTo_ne {β : Type} [Add β] :
    ∀ (m : List (String × β)) (k k' : String) (v : β), k' ≠ k →
      lookupKey (addTo m k v) k' = lookupKey m k' := by
  intro m
  induction m with
  | nil =>
    intro k k' v hne
    simp [addTo, lookupKey, Ne.symm hne]
  | cons p rest ih =>
    intro k k' v hne
    by_cases hk : p.1 = k
    · have hp : p.1 ≠ k' := by rw [hk]; exact Ne.symm hne
      simp [addTo, if_pos hk, lookupKey, hp]
    · by_cases hk' : p.1 = k'
      · simp only [addTo, if_neg hk]
        simp [lookupKey, hk']
      · simp only [addTo, if_neg hk]
        simp [lookupKey, hk', ih k k' v hne]

theorem valD_addTo_self {β : Type} [AddZeroClass β]
    (m : List (String × β)) (k : String) (v : β) :
    valD (addTo m k v) k = valD m k + v := by
  cases h : lookupKey m k with
  | none => rw [valD, lookupKey_addTo_none v h, valD, h]; simp
  | some w => rw [valD, lookupKey_addTo_some v h, valD, h]; rfl

theorem valD_addTo_ne {β : Type} [AddZeroClass β]
    (m : List (String × β)) (k k' : String) (v : β) (h : k' ≠ k) :
    valD (addTo m k v) k' = valD m k' := by
  rw [valD, lookupKey_addTo_ne m k k' v h, valD]

theorem keys_cons {β : Type} (p : String × β) (rest : List (String × β)) :
    keys (p :: rest) = p.1 :: keys rest := rfl

theorem mem_keys_addTo {β : Type} [Add β] :
    ∀ (m : List (String × β)) (k a : String) (v : β),
      a ∈ keys (addTo m k v) ↔ a ∈ keys m ∨ a = k := by
  intro m
  induction m with
  | nil => intro k a v; simp [addTo, keys]
  | cons p rest ih =>
    intro k a v
    by_cases hk : p.1 = k
    · subst hk
      simp [addTo, keys_cons, List.mem_cons]
      tauto
    · simp only [addTo, if_neg hk, keys_cons, List.mem_cons, ih k a v]
      tauto

theorem addTo_vals {β : Type} [Add β] {C : β → Prop} :
    ∀ (m : List (String × β)) (k : String) (v : β),
      (∀ p ∈ m, C p.2) → C v → (∀ x, C x → C (x + v)) →
      ∀ p ∈ addTo m k v, C p.2 := by
  intro m
  induction m with
  | nil =>
    intro k v _ hv _ p hp
    simp [addTo] at hp
    subst hp
    exact hv
  | cons q rest ih =>
    intro k v hm hv hadd p hp
    by_cases hk : q.1 = k
    · simp only [addTo, if_pos hk, List.mem_cons] at hp
      rcases hp with hp | hp
      · rw [hp]
        exact hadd q.2 (hm q (List.mem_cons_self _ _))
      · exact hm p (List.mem_cons_of_mem _ hp)
    · simp only [addTo, if_neg hk, List.mem_cons] at hp
      rcases hp with hp | hp
      · rw [hp]
        exact hm q (List.mem_cons_self _ _)
      · exact ih k v (fun r hr => hm r (List.mem_cons_of_mem _ hr)) hv hadd p hp

/-! ### Generic lemmas about the ingredient loop -/

theorem processIngredients_pres {P : CalcState → Prop}
    {step : String → Nat → CalcState → Option CalcState} {numCrafts : Nat} :
    ∀ {ings : List (String × Nat)},
      (∀ p ∈ ings, ∀ s s', step p.1 (p.2 * numCrafts) s = some s' → P s → P s') →
      ∀ {st st' : CalcState}, processIngredients step ings numCrafts st = some st' →
        P st → P st' := by
  intro ings
  induction ings with
  | nil =>
    intro _ st st' h hp
    simp only [processIngredients, Option.some.injEq] at h
    exact h ▸ hp
  | cons p rest ih =>
    intro hstep st st' h hp
    rw [processIngredients] at h
    cases hcall : step p.1 (p.2 * numCrafts) st with
    | none => simp [hcall] at h
    | some s1 =>
      simp only [hcall] at h
      exact ih (fun q hq => hstep q (List.mem_cons_of_mem _ hq)) h
        (hstep p (List.mem_cons_self _ _) st s1 hcall hp)

theorem processIngredients_isSome
    {step : String → Nat → CalcState → Option CalcState} {numCrafts : Nat} :
    ∀ {ings : List (String × Nat)},
      (∀ p ∈ ings, ∀ s, (step p.1 (p.2 * numCrafts) s).isSome) →
      ∀ st : CalcState, (processIngredients step ings numCrafts st).isSome := by
  intro ings
  induction ings with
  | nil => intro _ st; simp [processIngredients]
  | cons p rest ih =>
    intro hstep st
    rw [processIngredients]
    cases hcall : step p.1 (p.2 * numCrafts) st with
    | none =>
      have hs := hstep p (List.mem_cons_self _ _) st
      rw [hcall] at hs
      simp at hs
    | some s1 =>
      exact ih (fun q hq => hstep q (List.mem_cons_of_mem _ hq)) s1

/-! ### Termination on acyclic tables -/

theorem processRecipe_isSome {recipes : RecipeTable} {rank : String → Nat}
    (hr : Ranked recipes rank) :
    ∀ fuel item, rank item < fuel →
      ∀ amount st, (processRecipe recipes fuel item amount st).isSome := by
  intro fuel
  induction fuel with
  | zero => intro item h; exact absurd h (Nat.not_lt_zero _)
  | succ fuel ih =>
    intro item hlt amount st
    rw [processRecipe]
    cases hlook : lookupKey recipes item with
    | none => simp
    | some recipe =>
      have hmem := lookupKey_mem hlook
      have hfuel : rank item ≤ fuel := Nat.lt_succ_iff.mp hlt
      exact processIngredients_isSome
        (fun p hp s => ih p.1 (Nat.lt_of_lt_of_le (hr _ hmem p hp) hfuel) _ s) _

/-! ### The batch count of an item never demanded as an ingredient -/

theorem processRecipe_crafts_untouched {recipes : RecipeTable} {r : String}
    (hnr : ∀ p ∈ recipes, ∀ q ∈ p.2.ingredients, q.1 ≠ r) :
    ∀ fuel item, item ≠ r → ∀ amount st st',
      processRecipe recipes fuel item amount st = some st' →
      lookupKey st'.crafts r = lookupKey st.crafts r := by
  intro fuel
  induction fuel with
  | zero => intro item _ amount st st' h; simp [processRecipe] at h
  | succ fuel ih =>
    intro item hir amount st st' h
    rw [processRecipe] at h
    cases hlook : lookupKey recipes item with
    | none =>
      simp only [hlook, Option.some.injEq] at h
      exact h ▸ rfl
    | some recipe =>
      simp only [hlook] at h
      have hmem := lookupKey_mem hlook
      exact processIngredients_pres
        (P := fun s => lookupKey s.crafts r = lookupKey st.crafts r)
        (fun q hq s s' hcall hPs => by
          show lookupKey s'.crafts r = lookupKey st.crafts r
          rw [ih q.1 (hnr _ hmem q hq) _ s s' hcall]
          exact hPs)
        h
        (lookupKey_addTo_ne _ _ _ _ (Ne.symm hir))

/-! ### Rounding-up covers the demand -/

theorem le_mul_ceilDiv {a o : Nat} (ho : 0 < o) : a ≤ o * ceilDivNat a o := by
  show a ≤ o * ((a + o - 1) / o)
  have h1 := Nat.div_add_mod (a + o - 1) o
  have h2 : (a + o - 1) % o < o := Nat.mod_lt _ ho
  generalize hr : (a + o - 1) % o = r at h1 h2
  generalize hm : o * ((a + o - 1) / o) = m at h1 ⊢
  omega

/-! ### Zero demand propagates zero values -/

theorem processRecipe_zero {recipes : RecipeTable} (hpos : PosOutputs recipes) :
    ∀ fuel item st st', processRecipe recipes fuel item 0 st = some st' →
      AllZeroVals st → AllZeroVals st' := by
  intro fuel
  induction fuel with
  | zero => intro item st st' h; simp [processRecipe] at h
  | succ fuel ih =>
    intro item st st' h hz
    rw [processRecipe] at h
    cases hlook : lookupKey recipes item with
    | none =>
      simp only [hlook, Option.some.injEq] at h
      subst h
      exact ⟨addTo_vals (C := fun x => x = 0) _ _ _ hz.1 rfl
        (fun x hx => by show x + 0 = 0; omega), hz.2⟩
    | some recipe =>
      have ho : 0 < recipe.output := hpos _ (lookupKey_mem hlook)
      have hb : ceilDivNat 0 recipe.output = 0 := by
        show (0 + recipe.output - 1) / recipe.output = 0
        exact Nat.div_eq_of_lt (show 0 + recipe.output - 1 < recipe.output by omega)
      simp only [hlook, hb] at h
      exact processIngredients_pres (P := AllZeroVals)
        (fun q hq s s' hcall hPs => by
          rw [Nat.mul_zero] at hcall
          exact ih q.1 s s' hcall hPs)
        h
        ⟨hz.1, addTo_vals (C := fun x => x = 0) _ _ _ hz.2 rfl
          (fun x hx => by show x + 0 = 0; omega)⟩

/-! ### Key classification invariant -/

theorem processRecipe_keyClassified {recipes : RecipeTable} :
    ∀ fuel item amount st st', processRecipe recipes fuel item amount st = some st' →
      KeyClassified recipes st → KeyClassified recipes st' := by
  intro fuel
  induction fuel with
  | zero => intro item amount st st' h; simp [processRecipe] at h
  | succ fuel ih =>
    intro item amount st st' h hcl
    rw [processRecipe] at h
    cases hlook : lookupKey recipes item with
    | none =>
      simp only [hlook, Option.some.injEq] at h
      subst h
      refine ⟨hcl.1, ?_⟩
      intro k hk
      rcases (mem_keys_addTo _ _ _ _).mp hk with hk | hk
      · exact hcl.2 k hk
      · exact hk ▸ hlook
    | some recipe =>
      simp only [hlook] at h
      refine processIngredients_pres (P := KeyClassified recipes)
        (fun q hq s s' hcall hPs => ih q.1 _ s s' hcall hPs) h ?_
      refine ⟨?_, hcl.2⟩
      intro k hk
      rcases (mem_keys_addTo _ _ _ _).mp hk with hk | hk
      · exact hcl.1 k hk
      · rw [hk, hlook]; rfl

/-! ### Claim theorems (first group) -/

/-- C3: on the concrete example recipe table, resolving `ironBar`×10,
`nails`×25 and `transferBoxes`×5 produces exactly the materials and
crafts maps stated in the spec's concrete scenario. -/
theorem concrete_scenario_results :
    calculateMaterials exampleRecipes "ironBar" 10 10 =
      some ([("ironOre", 50), ("coal", 50)], [("ironBar", 2)]) ∧
    calculateMaterials exampleRecipes "nails" 25 10 =
      some ([("ironOre", 25), ("coal", 30)], [("nails", 5), ("ironBar", 1)]) ∧
    calculateMaterials exampleRecipes "transferBoxes" 5 10 =
      some ([("copperOre", 15), ("coal", 36), ("ironOre", 25), ("softwood", 10)],
            [("transferBoxes", 5), ("copperBar", 3), ("nails", 5), ("ironBar", 1)]) := by
  refine ⟨?_, ?_, ?_⟩ <;> rfl

/-- C2: a craftable recipe that is demanded exactly once — it is the
resolution target and never occurs as an ingredient of any recipe — ends
with `crafts[r] = ceil(a / output)`. -/
theorem crafts_eq_ceil_of_single_demand {recipes : RecipeTable} {r : String}
    {recipe : Recipe} {fuel a : Nat} {st' : CalcState}
    (hlook : lookupKey recipes r = some recipe)
    (hnr : ∀ p ∈ recipes, ∀ q ∈ p.2.ingredients, q.1 ≠ r)
    (hrun : processRecipe recipes fuel r a ⟨[], []⟩ = some st') :
    lookupKey st'.crafts r = some (ceilDivNat a recipe.output) := by
  cases fuel with
  | zero => simp [processRecipe] at hrun
  | succ fuel =>
    rw [processRecipe] at hrun
    simp only [hlook] at hrun
    exact processIngredients_pres
      (P := fun s => lookupKey s.crafts r = some (ceilDivNat a recipe.output))
      (fun q hq s s' hcall hPs => by
        show lookupKey s'.crafts r = _
        rw [processRecipe_crafts_untouched hnr fuel q.1
          (hnr _ (lookupKey_mem hlook) q hq) _ s s' hcall]
        exact hPs)
      hrun
      (lookupKey_addTo_none _ rfl)

/-- C2 witness: `transferBoxes` demanded once with amount 5 and output 1
gets exactly `ceil(5/1) = 5` crafts. -/
theorem crafts_eq_ceil_of_single_demand_witness :
    lookupKey [("transferBoxes", 5), ("copperBar", 3), ("nails", 5), ("ironBar", 1)]
      "transferBoxes" = some (ceilDivNat 5 1) :=
  @crafts_eq_ceil_of_single_demand exampleRecipes "transferBoxes"
    ⟨[("copperBar", 1), ("nails", 5), ("softwood", 2)], 1⟩ 10 5
    ⟨[("copperOre", 15), ("coal", 36), ("ironOre", 25), ("softwood", 10)],
     [("transferBoxes", 5), ("copperBar", 3), ("nails", 5), ("ironBar", 1)]⟩
    rfl (by decide) rfl

/-- C5: an absent target item is reported entirely as a raw-material
demand: `materials = [(targetItem, desiredQuantity)]` and empty crafts,
with no failure. -/
theorem absent_target_is_raw_material {recipes : RecipeTable} {targetItem : String}
    (fuel desiredQuantity : Nat)
    (hmiss : lookupKey recipes targetItem = none) :
    calculateMaterials recipes targetItem desiredQuantity (fuel + 1) =
      some ([(targetItem, desiredQuantity)], []) := by
  rw [calculateMaterials, processRecipe]
  simp only [hmiss]
  rfl

/-- C5 witness at a concrete absent item. -/
theorem absent_target_is_raw_material_witness :
    calculateMaterials exampleRecipes "driftwood" 7 3 =
      some ([("driftwood", 7)], []) :=
  absent_target_is_raw_material 2 7 rfl

/-- C8: on an acyclic recipe table (witnessed by a rank function) with
positive outputs, the resolver terminates whenever the fuel exceeds the
target's rank (the longest ingredient chain below it), and every value
in both result maps is non-negative. -/
theorem resolver_terminates {recipes : RecipeTable} {rank : String → Nat}
    {fuel : Nat} {targetItem : String}
    (hrank : Ranked recipes rank) (hpos : PosOutputs recipes)
    (hfuel : rank targetItem < fuel) (desiredQuantity : Nat) :
    ∃ materials crafts,
      calculateMaterials recipes targetItem desiredQuantity fuel =
        some (materials, crafts) ∧
      (∀ p ∈ materials, 0 ≤ p.2) ∧ (∀ p ∈ crafts, 0 ≤ p.2) := by
  have h := processRecipe_isSome hrank fuel targetItem hfuel desiredQuantity ⟨[], []⟩
  obtain ⟨st', hst⟩ := Option.isSome_iff_exists.mp h
  exact ⟨st'.materials, st'.crafts, by rw [calculateMaterials, hst]; rfl,
    fun p _ => Nat.zero_le _, fun p _ => Nat.zero_le _⟩

/-- C8 witness: the example table is ranked and resolution of
`transferBoxes` at fuel 4 terminates. -/
theorem resolver_terminates_witness :
    ∃ materials crafts,
      calculateMaterials exampleRecipes "transferBoxes" 5 4 =
        some (materials, crafts) ∧
      (∀ p ∈ materials, 0 ≤ p.2) ∧ (∀ p ∈ crafts, 0 ≤ p.2) :=
  @resolver_terminates exampleRecipes exampleRank 4 "transferBoxes"
    (by decide) (by decide) (by decide) 5

/-- C10: every key of the returned crafts map is a key of the recipe
table, every key of the returned materials map is absent from it, and
the two key sets are disjoint. -/
theorem result_keys_classified {recipes : RecipeTable} {fuel desiredQuantity : Nat}
    {targetItem : String} {materials crafts : List (String × Nat)}
    (hrun : calculateMaterials recipes targetItem desiredQuantity fuel =
      some (materials, crafts)) :
    (∀ k ∈ keys crafts, (lookupKey recipes k).isSome) ∧
    (∀ k ∈ keys materials, lookupKey recipes k = none) ∧
    (∀ k ∈ keys crafts, k ∉ keys materials) := by
  rw [calculateMaterials] at hrun
  cases hst : processRecipe recipes fuel targetItem desiredQuantity ⟨[], []⟩ with
  | none => rw [hst] at hrun; simp at hrun
  | some st' =>
    rw [hst] at hrun
    simp only [Option.map_some', Option.some.injEq, Prod.mk.injEq] at hrun
    obtain ⟨h1, h2⟩ := hrun
    subst h1; subst h2
    have hcl := processRecipe_keyClassified fuel targetItem desiredQuantity ⟨[], []⟩ st' hst
      ⟨fun k hk => absurd hk (List.not_mem_nil _), fun k hk => absurd hk (List.not_mem_nil _)⟩
    refine ⟨hcl.1, hcl.2, ?_⟩
    intro k hk hk2
    have h := hcl.1 k hk
    rw [hcl.2 k hk2] at h
    simp at h

/-- C10 witness at the concrete `nails`×25 run. -/
theorem result_keys_classified_witness :
    (∀ k ∈ keys [("nails", 5), ("ironBar", 1)],
      (lookupKey exampleRecipes k).isSome) ∧
    (∀ k ∈ keys [("ironOre", 25), ("coal", 30)],
      lookupKey exampleRecipes k = none) ∧
    (∀ k ∈ keys [("nails", 5), ("ironBar", 1)],
      k ∉ keys [("ironOre", 25), ("coal", 30)]) :=
  @result_keys_classified exampleRecipes 10 25 "nails"
    [("ironOre", 25), ("coal", 30)] [("nails", 5), ("ironBar", 1)] rfl

/-- C4 counterexample: resolving `ironBar` with quantity 0 does NOT
return empty maps — the materials map has (zero-valued) entries. -/
theorem zero_quantity_counterexample :
    calculateMaterials exampleRecipes "ironBar" 0 10 =
      some ([("ironOre", 0), ("coal", 0)], [("ironBar", 0)]) ∧
    ([("ironOre", 0), ("coal", 0)] : List (String × Nat)) ≠ [] := by
  exact ⟨rfl, by simp⟩

/-- C4 (amended): with positive outputs, resolving any target with
desiredQuantity = 0 returns maps all of whose entries carry the value 0
(entries for visited items may be present; the maps need not be
entry-free). -/
theorem zero_quantity_all_values_zero {recipes : RecipeTable}
    {fuel : Nat} {targetItem : String} {materials crafts : List (String × Nat)}
    (hpos : PosOutputs recipes)
    (hrun : calculateMaterials recipes targetItem 0 fuel = some (materials, crafts)) :
    (∀ p ∈ materials, p.2 = 0) ∧ (∀ p ∈ crafts, p.2 = 0) := by
  rw [calculateMaterials] at hrun
  cases hst : processRecipe recipes fuel targetItem 0 ⟨[], []⟩ with
  | none => rw [hst] at hrun; simp at hrun
  | some st' =>
    rw [hst] at hrun
    simp only [Option.map_some', Option.some.injEq, Prod.mk.injEq] at hrun
    obtain ⟨h1, h2⟩ := hrun
    subst h1; subst h2
    exact processRecipe_zero hpos fuel targetItem ⟨[], []⟩ st' hst
      ⟨fun p hp => absurd hp (List.not_mem_nil _), fun p hp => absurd hp (List.not_mem_nil _)⟩

/-- C4 (amended) witness at the concrete zero-quantity run. -/
theorem zero_quantity_all_values_zero_witness :
    (∀ p ∈ [("ironOre", 0), ("coal", 0)], Prod.snd p = 0) ∧
    (∀ p ∈ [("ironBar", 0)], Prod.snd p = 0) :=
  @zero_quantity_all_values_zero exampleRecipes 10 "ironBar"
    [("ironOre", 0), ("coal", 0)] [("ironBar", 0)] (by decide) rfl

/-- C1: on the two-path family, recipe `r` (output `o`) is demanded via
path `p1` with amount `a1` and via path `p2` with amount `a2`, and its
final batch count is `ceil(a1/o) + ceil(a2/o)` — each call site rounds
its own demand up independently and the rounded counts are summed. -/
theorem crafts_sum_over_paths (a1 a2 o : Nat) (ho : 0 < o) :
    (processRecipe (twoPathTable a1 a2 o) 4 "top" 1 ⟨[], []⟩).map
      (fun st => lookupKey st.crafts "r") =
    some (some (ceilDivNat a1 o + ceilDivNat a2 o)) := by
  have h : (processRecipe (twoPathTable a1 a2 o) 4 "top" 1 ⟨[], []⟩).map
      (fun st => lookupKey st.crafts "r") =
      some (some (ceilDivNat (a1 * ceilDivNat (1 * ceilDivNat 1 1) 1) o +
                  ceilDivNat (a2 * ceilDivNat (1 * ceilDivNat 1 1) 1) o)) := rfl
  have e : ceilDivNat (1 * ceilDivNat 1 1) 1 = 1 := rfl
  rw [h, e, Nat.mul_one, Nat.mul_one]

/-- C1 witness at `a1 = 1`, `a2 = 1`, `o = 2`: the sum of per-path
ceilings is `1 + 1 = 2`, not `ceil((1+1)/2) = 1`. -/
theorem crafts_sum_over_paths_witness :
    (processRecipe (twoPathTable 1 1 2) 4 "top" 1 ⟨[], []⟩).map
      (fun st => lookupKey st.crafts "r") =
    some (some (ceilDivNat 1 2 + ceilDivNat 1 2)) :=
  crafts_sum_over_paths 1 1 2 (by decide)

/-! ### A loop over raw ingredients only accumulates materials -/

theorem processIngredients_raw {recipes : RecipeTable} {f : Nat} (hf : f ≠ 0) :
    ∀ (ings : List (String × Nat)), (∀ p ∈ ings, lookupKey recipes p.1 = none) →
      ∀ (b : Nat) (st : CalcState),
        processIngredients (fun n a s => processRecipe recipes f n a s) ings b st =
          some ⟨ings.foldl (fun m p => addTo m p.1 (p.2 * b)) st.materials, st.crafts⟩ := by
  obtain ⟨f', rfl⟩ := Nat.exists_eq_succ_of_ne_zero hf
  intro ings
  induction ings with
  | nil => intro _ b st; rfl
  | cons p rest ih =>
    intro hraw b st
    rw [processIngredients]
    have hcall : processRecipe recipes (f' + 1) p.1 (p.2 * b) st =
        some ⟨addTo st.materials p.1 (p.2 * b), st.crafts⟩ := by
      rw [processRecipe, hraw p (List.mem_cons_self _ _)]
    simp only [hcall]
    rw [ih (fun q hq => hraw q (List.mem_cons_of_mem _ hq)) b _]
    rfl

theorem lookupKey_foldl_addTo_notmem {b : Nat} :
    ∀ (ings : List (String × Nat)) (m : List (String × Nat)) (ing : String),
      (∀ p ∈ ings, p.1 ≠ ing) →
      lookupKey (ings.foldl (fun m p => addTo m p.1 (p.2 * b)) m) ing =
        lookupKey m ing := by
  intro ings
  induction ings with
  | nil => intro m ing _; rfl
  | cons p rest ih =>
    intro m ing hne
    show lookupKey (rest.foldl _ (addTo m p.1 (p.2 * b))) ing = _
    rw [ih _ ing (fun q hq => hne q (List.mem_cons_of_mem _ hq))]
    exact lookupKey_addTo_ne _ _ _ _ (Ne.symm (hne p (List.mem_cons_self _ _)))

theorem lookupKey_foldl_addTo {b : Nat} :
    ∀ (ings : List (String × Nat)) (m : List (String × Nat)) (ing : String) (per : Nat),
      (ings.map Prod.fst).Nodup → (ing, per) ∈ ings → lookupKey m ing = none →
      lookupKey (ings.foldl (fun m p => addTo m p.1 (p.2 * b)) m) ing =
        some (per * b) := by
  intro ings
  induction ings with
  | nil => intro m ing per _ hmem; exact absurd hmem (List.not_mem_nil _)
  | cons p rest ih =>
    intro m ing per hnd hmem hnone
    rcases List.mem_cons.mp hmem with heq | hmem'
    · subst heq
      show lookupKey (rest.foldl _ (addTo m ing (per * b))) ing = _
      rw [lookupKey_foldl_addTo_notmem rest _ ing ?hall]
      · exact lookupKey_addTo_none _ hnone
      case hall =>
        intro q hq hq1
        apply (List.nodup_cons.mp hnd).1
        have hmap := List.mem_map_of_mem Prod.fst hq
        rw [hq1] at hmap
        exact hmap
    · have hp1 : p.1 ≠ ing := by
        intro hp
        apply (List.nodup_cons.mp hnd).1
        rw [hp]
        exact List.mem_map_of_mem Prod.fst hmem'
      show lookupKey (rest.foldl _ (addTo m p.1 (p.2 * b))) ing = _
      refine ih _ ing per (List.nodup_cons.mp hnd).2 hmem' ?_
      rw [lookupKey_addTo_ne _ _ _ _ (Ne.symm hp1)]
      exact hnone

/-- C6: a craftable recipe `r` processed with demand `a` propagates to
each of its (raw, distinctly named) ingredients exactly
`perBatch * ceil(a/output)` — the per-batch quantity times the
rounded-up batch count. -/
theorem ingredient_demand_uses_batches {r : String} {recipe : Recipe} {a : Nat}
    {ing : String} {per : Nat}
    (hnd : (recipe.ingredients.map Prod.fst).Nodup)
    (hnr : ∀ q ∈ recipe.ingredients, q.1 ≠ r)
    (ho : 0 < recipe.output)
    (hmem : (ing, per) ∈ recipe.ingredients) :
    (processRecipe [(r, recipe)] 2 r a ⟨[], []⟩).map
      (fun st => lookupKey st.materials ing) =
    some (some (per * ceilDivNat a recipe.output)) := by
  have hlook : lookupKey [(r, recipe)] r = some recipe := by simp [lookupKey]
  have hraw : ∀ p ∈ recipe.ingredients, lookupKey [(r, recipe)] p.1 = none := by
    intro p hp
    simp [lookupKey, Ne.symm (hnr p hp)]
  rw [show (2 : Nat) = 1 + 1 from rfl, processRecipe]
  simp only [hlook]
  rw [processIngredients_raw one_ne_zero recipe.ingredients hraw _ _]
  simp only [Option.map_some', Option.some.injEq]
  exact lookupKey_foldl_addTo recipe.ingredients [] ing per hnd hmem rfl

/-- C6 witness: `copperBar` (output 2) demanded 5 propagates
`5 * ceil(5/2) = 15` to its raw ingredient `copperOre`. -/
theorem ingredient_demand_uses_batches_witness :
    (processRecipe [("copperBar", ⟨[("copperOre", 5), ("coal", 2)], 2⟩)] 2
        "copperBar" 5 ⟨[], []⟩).map
      (fun st => lookupKey st.materials "copperOre") =
    some (some (5 * ceilDivNat 5 2)) :=
  @ingredient_demand_uses_batches "copperBar" ⟨[("copperOre", 5), ("coal", 2)], 2⟩
    5 "copperOre" 5 (by decide) (by decide) (by decide) (by decide)

/-! ### Frame property: the recipe table is never written -/

theorem processIngredientsS_frame {T : RecipeTable}
    {stepS : String → Nat → FullState → Option FullState}
    {step : String → Nat → CalcState → Option CalcState}
    (hstep : ∀ n a s s', stepS n a s = some s' → s.recipes = T →
      s'.recipes = T ∧ step n a ⟨s.materials, s.crafts⟩ = some ⟨s'.materials, s'.crafts⟩) :
    ∀ ings b (st st' : FullState), st.recipes = T →
      processIngredientsS stepS ings b st = some st' →
      st'.recipes = T ∧
        processIngredients step ings b ⟨st.materials, st.crafts⟩ =
          some ⟨st'.materials, st'.crafts⟩ := by
  intro ings
  induction ings with
  | nil =>
    intro b st st' hT h
    simp only [processIngredientsS, Option.some.injEq] at h
    subst h
    exact ⟨hT, rfl⟩
  | cons p rest ih =>
    intro b st st' hT h
    rw [processIngredientsS] at h
    cases hcall : stepS p.1 (p.2 * b) st with
    | none => simp [hcall] at h
    | some s1 =>
      simp only [hcall] at h
      obtain ⟨h1, h2⟩ := hstep _ _ _ _ hcall hT
      obtain ⟨h3, h4⟩ := ih b s1 st' h1 h
      refine ⟨h3, ?_⟩
      rw [processIngredients]
      simp only [h2]
      exact h4

/-- C9: the resolver never mutates the recipe table.  Running the
full-environment embedding leaves the `recipes` field unchanged, and its
only effect is that the two accumulators evolve exactly as the pure
two-map computation dictates. -/
theorem resolver_preserves_recipes :
    ∀ fuel item amount (st st' : FullState),
      processRecipeS fuel item amount st = some st' →
      st'.recipes = st.recipes ∧
        processRecipe st.recipes fuel item amount ⟨st.materials, st.crafts⟩ =
          some ⟨st'.materials, st'.crafts⟩ := by
  intro fuel
  induction fuel with
  | zero => intro item amount st st' h; simp [processRecipeS] at h
  | succ fuel ih =>
    intro item amount st st' h
    rw [processRecipeS] at h
    cases hlook : lookupKey st.recipes item with
    | none =>
      simp only [hlook, Option.some.injEq] at h
      subst h
      refine ⟨rfl, ?_⟩
      rw [processRecipe]
      simp only [hlook]
    | some recipe =>
      simp only [hlook] at h
      obtain ⟨h1, h2⟩ := processIngredientsS_frame
        (fun n a s s' hc hT => by
          obtain ⟨u1, u2⟩ := ih n a s s' hc
          rw [hT] at u1 u2
          exact ⟨u1, u2⟩)
        recipe.ingredients (ceilDivNat amount recipe.output) _ st' rfl h
      refine ⟨h1, ?_⟩
      rw [processRecipe]
      simp only [hlook]
      exact h2

/-- C9 witness at the concrete `nails`×25 run over the example table. -/
theorem resolver_preserves_recipes_witness :
    (⟨exampleRecipes, [("ironOre", 25), ("coal", 30)],
      [("nails", 5), ("ironBar", 1)]⟩ : FullState).recipes =
      (⟨exampleRecipes, [], []⟩ : FullState).recipes ∧
    processRecipe (⟨exampleRecipes, [], []⟩ : FullState).recipes 10 "nails" 25
        ⟨(⟨exampleRecipes, [], []⟩ : FullState).materials,
         (⟨exampleRecipes, [], []⟩ : FullState).crafts⟩ =
      some ⟨[("ironOre", 25), ("coal", 30)], [("nails", 5), ("ironBar", 1)]⟩ :=
  resolver_preserves_recipes 10 "nails" 25 ⟨exampleRecipes, [], []⟩
    ⟨exampleRecipes, [("ironOre", 25), ("coal", 30)], [("nails", 5), ("ironBar", 1)]⟩
    rfl

/-! ### The ghost run projects onto the real run -/

theorem processIngredientsG_proj
    {stepG : String → Nat → GState → Option GState}
    {step : String → Nat → CalcState → Option CalcState}
    (hstep : ∀ n a g, (stepG n a g).map projG = step n a (projG g)) :
    ∀ ings b g, (processIngredientsG stepG ings b g).map projG =
      processIngredients step ings b (projG g) := by
  intro ings
  induction ings with
  | nil => intro b g; rfl
  | cons p rest ih =>
    intro b g
    rw [processIngredientsG, processIngredients]
    have h := hstep p.1 (p.2 * b) g
    cases hcall : stepG p.1 (p.2 * b) g with
    | none =>
      rw [hcall] at h
      rw [← h]
      rfl
    | some g1 =>
      rw [hcall] at h
      rw [← h]
      exact ih b g1

theorem processRecipeG_proj {recipes : RecipeTable} :
    ∀ fuel item a g, (processRecipeG recipes fuel item a g).map projG =
      processRecipe recipes fuel item a (projG g) := by
  intro fuel
  induction fuel with
  | zero => intro item a g; rfl
  | succ fuel ih =>
    intro item a g
    rw [processRecipeG, processRecipe]
    cases hlook : lookupKey recipes item with
    | none => rfl
    | some recipe => exact processIngredientsG_proj (fun n a' g' => ih n a' g') _ _ _

/-! ### Output times crafts covers the logged demand -/

theorem processIngredientsG_pres {P : GState → Prop}
    {stepG : String → Nat → GState → Option GState} {numCrafts : Nat} :
    ∀ {ings : List (String × Nat)},
      (∀ p ∈ ings, ∀ g g', stepG p.1 (p.2 * numCrafts) g = some g' → P g → P g') →
      ∀ {g g' : GState}, processIngredientsG stepG ings numCrafts g = some g' →
        P g → P g' := by
  intro ings
  induction ings with
  | nil =>
    intro _ g g' h hp
    simp only [processIngredientsG, Option.some.injEq] at h
    exact h ▸ hp
  | cons p rest ih =>
    intro hstep g g' h hp
    rw [processIngredientsG] at h
    cases hcall : stepG p.1 (p.2 * numCrafts) g with
    | none => simp [hcall] at h
    | some g1 =>
      simp only [hcall] at h
      exact ih (fun q hq => hstep q (List.mem_cons_of_mem _ hq)) h
        (hstep p (List.mem_cons_self _ _) g g1 hcall hp)

theorem processRecipeG_covered {recipes : RecipeTable} (hpos : PosOutputs recipes) :
    ∀ fuel item a (g g' : GState), processRecipeG recipes fuel item a g = some g' →
      DemandsCovered recipes g → DemandsCovered recipes g' := by
  intro fuel
  induction fuel with
  | zero => intro item a g g' h; simp [processRecipeG] at h
  | succ fuel ih =>
    intro item a g g' h hcov
    rw [processRecipeG] at h
    cases hlook : lookupKey recipes item with
    | none =>
      simp only [hlook, Option.some.injEq] at h
      subst h
      exact hcov
    | some recipe =>
      simp only [hlook] at h
      refine processIngredientsG_pres (P := DemandsCovered recipes)
        (fun q hq s s' hcall hPs => ih q.1 _ s s' hcall hPs) h ?_
      intro it rec hl
      by_cases hit : it = item
      · subst hit
        have hrec : rec = recipe := by
          rw [hl] at hlook
          exact Option.some.inj hlook
        subst hrec
        show valD (addTo g.demands it a) it ≤
          rec.output * valD (addTo g.crafts it (ceilDivNat a rec.output)) it
        rw [valD_addTo_self, valD_addTo_self, Nat.mul_add]
        have h1 := hcov it rec hl
        have h2 : a ≤ rec.output * ceilDivNat a rec.output :=
          le_mul_ceilDiv (hpos _ (lookupKey_mem hl))
        omega
      · show valD (addTo g.demands item a) it ≤
          rec.output * valD (addTo g.crafts item (ceilDivNat a recipe.output)) it
        rw [valD_addTo_ne _ _ _ _ hit, valD_addTo_ne _ _ _ _ hit]
        exact hcov it rec hl

/-! ### The computed materials dominate the unrounded ideal -/

theorem idealIngredients_dominates
    {step : String → Nat → CalcState → Option CalcState}
    {stepQ : String → ℚ → List (String × ℚ) → Option (List (String × ℚ))}
    (hstep : ∀ n (aN : Nat) (aQ : ℚ) s s' mQ, step n aN s = some s' →
      aQ ≤ (aN : ℚ) → Dominates mQ s.materials →
      ∃ mQ', stepQ n aQ mQ = some mQ' ∧ Dominates mQ' s'.materials)
    {bN : Nat} {bQ : ℚ} (hb : bQ ≤ (bN : ℚ)) :
    ∀ ings (st st' : CalcState) mQ, processIngredients step ings bN st = some st' →
      Dominates mQ st.materials →
      ∃ mQ', idealIngredients stepQ ings bQ mQ = some mQ' ∧
        Dominates mQ' st'.materials := by
  intro ings
  induction ings with
  | nil =>
    intro st st' mQ h hdom
    simp only [processIngredients, Option.some.injEq] at h
    exact ⟨mQ, rfl, h ▸ hdom⟩
  | cons p rest ih =>
    intro st st' mQ h hdom
    rw [processIngredients] at h
    cases hcall : step p.1 (p.2 * bN) st with
    | none => simp [hcall] at h
    | some s1 =>
      simp only [hcall] at h
      have hle : ((p.2 : ℚ)) * bQ ≤ ((p.2 * bN : ℕ) : ℚ) := by
        push_cast
        exact mul_le_mul_of_nonneg_left hb (by positivity)
      obtain ⟨m1, hm1, hdom1⟩ :=
        hstep p.1 (p.2 * bN) ((p.2 : ℚ) * bQ) st s1 mQ hcall hle hdom
      obtain ⟨m2, hm2, hdom2⟩ := ih s1 st' m1 h hdom1
      refine ⟨m2, ?_, hdom2⟩
      rw [idealIngredients]
      simp only [hm1]
      exact hm2

theorem idealProcess_dominated {recipes : RecipeTable} (hpos : PosOutputs recipes) :
    ∀ fuel item (aN : Nat) (aQ : ℚ) (st st' : CalcState) mQ,
      processRecipe recipes fuel item aN st = some st' →
      aQ ≤ (aN : ℚ) → Dominates mQ st.materials →
      ∃ mQ', idealProcess recipes fuel item aQ mQ = some mQ' ∧
        Dominates mQ' st'.materials := by
  intro fuel
  induction fuel with
  | zero => intro item aN aQ st st' mQ h; simp [processRecipe] at h
  | succ fuel ih =>
    intro item aN aQ st st' mQ h hle hdom
    rw [processRecipe] at h
    rw [idealProcess]
    cases hlook : lookupKey recipes item with
    | none =>
      simp only [hlook, Option.some.injEq] at h
      subst h
      simp only [hlook]
      refine ⟨addTo mQ item aQ, rfl, ?_⟩
      intro k
      show valD (addTo mQ item aQ) k ≤ ((valD (addTo st.materials item aN) k : ℕ) : ℚ)
      by_cases hk : k = item
      · subst hk
        rw [valD_addTo_self, valD_addTo_self]
        push_cast
        exact add_le_add (hdom k) hle
      · rw [valD_addTo_ne _ _ _ _ hk, valD_addTo_ne _ _ _ _ hk]
        exact hdom k
    | some recipe =>
      simp only [hlook] at h
      simp only [hlook]
      have hopos : 0 < recipe.output := hpos _ (lookupKey_mem hlook)
      have ho : (0 : ℚ) < (recipe.output : ℚ) := by exact_mod_cast hopos
      have hb : aQ / (recipe.output : ℚ) ≤ ((ceilDivNat aN recipe.output : ℕ) : ℚ) := by
        have h1 : aQ / (recipe.output : ℚ) ≤ (aN : ℚ) / (recipe.output : ℚ) := by gcongr
        have h2 : (aN : ℚ) / (recipe.output : ℚ) ≤
            ((ceilDivNat aN recipe.output : ℕ) : ℚ) := by
          rw [div_le_iff₀ ho, mul_comm]
          exact_mod_cast le_mul_ceilDiv hopos
        exact h1.trans h2
      exact idealIngredients_dominates
        (fun n aN' aQ' s s' m hc hl hd => ih n aN' aQ' s s' m hc hl hd) hb
        recipe.ingredients _ st' mQ h hdom

/-- C7: the result is never an under-estimate.  On an acyclic recipe
table with positive outputs, the (ghost-instrumented) run succeeds and
projects onto the real run; for every craftable item, `output` times its
final batch count covers the total demand over all call sites; and
every raw-material total dominates the mathematically minimal
(unrounded, rational) requirement computed by `idealProcess`. -/
theorem result_never_under_estimates {recipes : RecipeTable} {rank : String → Nat}
    {fuel : Nat} {targetItem : String}
    (hrank : Ranked recipes rank) (hpos : PosOutputs recipes)
    (hfuel : rank targetItem < fuel) (desiredQuantity : Nat) :
    ∃ (g : GState) (mI : List (String × ℚ)),
      processRecipeG recipes fuel targetItem desiredQuantity ⟨[], [], []⟩ = some g ∧
      processRecipe recipes fuel targetItem desiredQuantity ⟨[], []⟩ =
        some ⟨g.materials, g.crafts⟩ ∧
      (∀ item recipe, lookupKey recipes item = some recipe →
        valD g.demands item ≤ recipe.output * valD g.crafts item) ∧
      idealProcess recipes fuel targetItem (desiredQuantity : ℚ) [] = some mI ∧
      (∀ k, valD mI k ≤ ((valD g.materials k : ℕ) : ℚ)) := by
  have hsome := processRecipe_isSome hrank fuel targetItem hfuel desiredQuantity ⟨[], []⟩
  obtain ⟨st', hst⟩ := Option.isSome_iff_exists.mp hsome
  have hproj := @processRecipeG_proj recipes fuel targetItem desiredQuantity ⟨[], [], []⟩
  rw [show projG ⟨[], [], []⟩ = (⟨[], []⟩ : CalcState) from rfl, hst] at hproj
  obtain ⟨g, hg, hgproj⟩ := Option.map_eq_some'.mp hproj
  subst hgproj
  have hcov := processRecipeG_covered hpos fuel targetItem desiredQuantity
    ⟨[], [], []⟩ g hg (fun item rec _ => Nat.zero_le _)
  obtain ⟨mI, hmI, hdomI⟩ := idealProcess_dominated hpos fuel targetItem
    desiredQuantity (desiredQuantity : ℚ) ⟨[], []⟩ (projG g) [] hst (le_refl _)
    (fun k => le_refl 0)
  exact ⟨g, mI, hg, hst, hcov, hmI, hdomI⟩

/-- C7 witness on the example table, target `transferBoxes`, quantity 5. -/
theorem result_never_under_estimates_witness :
    ∃ (g : GState) (mI : List (String × ℚ)),
      processRecipeG exampleRecipes 4 "transferBoxes" 5 ⟨[], [], []⟩ = some g ∧
      processRecipe exampleRecipes 4 "transferBoxes" 5 ⟨[], []⟩ =
        some ⟨g.materials, g.crafts⟩ ∧
      (∀ item recipe, lookupKey exampleRecipes item = some recipe →
        valD g.demands item ≤ recipe.output * valD g.crafts item) ∧
      idealProcess exampleRecipes 4 "transferBoxes" ((5 : Nat) : ℚ) [] = some mI ∧
      (∀ k, valD mI k ≤ ((valD g.materials k : ℕ) : ℚ)) :=
  @result_never_under_estimates exampleRecipes exampleRank 4 "transferBoxes"
    (by decide) (by decide) (by decide) 5

end RedmCalc
